import Mathlib

/-!
Shallow embedding of the markdown task-list parser of `src/extension.js`
(`SpecTasksProvider.parseTasksFile`, lines 558-640; the same function appears
in `src/unnamed/part_000`, lines 533-608).  Documents are modelled as lists of
characters; the JavaScript regular expressions are translated into
deterministic matching functions, including the one backtracking step that the
pattern `(T\d+)(.+)` can take when nothing follows the digits.
-/

namespace TraycerPoc

/-- Characters of a string literal, used to write concrete documents. -/
def str (s : String) : List Char := s.data

/-- JavaScript `.` in a regular expression: any character except the four
line terminators `\n`, `\r`, U+2028, U+2029. -/
def jsDot (c : Char) : Bool :=
  !(c = '\n' || c = '\r' || c.toNat = 0x2028 || c.toNat = 0x2029)

/-- The character set treated as whitespace by JavaScript `String.prototype.trim`. -/
def isJsSpace (c : Char) : Bool :=
  c = ' ' || c = '\t' || c = '\n' || c = '\r' ||
  c.toNat = 0x0B || c.toNat = 0x0C || c.toNat = 0xA0 || c.toNat = 0x1680 ||
  (0x2000 ≤ c.toNat && c.toNat ≤ 0x200A) ||
  c.toNat = 0x2028 || c.toNat = 0x2029 || c.toNat = 0x202F ||
  c.toNat = 0x205F || c.toNat = 0x3000 || c.toNat = 0xFEFF

/-- JavaScript `.trim()`: drop whitespace from both ends. -/
def jsTrim (s : List Char) : List Char :=
  ((s.dropWhile isJsSpace).reverse.dropWhile isJsSpace).reverse

/-- JavaScript `content.split('\n')` (line 560): split on `'\n'`, keeping
empty pieces; the empty string yields one empty line. -/
def splitLines : List Char → List (List Char)
  | [] => [[]]
  | c :: cs =>
    if c = '\n' then [] :: splitLines cs
    else
      match splitLines cs with
      | [] => [[c]]
      | l :: ls => (c :: l) :: ls

/-- `leadsWith p s` holds when `p` is an initial segment of `s`. -/
def leadsWith : List Char → List Char → Bool
  | [], _ => true
  | _ :: _, [] => false
  | p :: ps, s :: ss => p = s && leadsWith ps ss

/-- JavaScript `s.includes(pat)`: `pat` occurs contiguously inside `s`
(line 596, `description.includes('[P]')`). -/
def hasOccur (pat : List Char) : List Char → Bool
  | [] => leadsWith pat []
  | c :: cs => leadsWith pat (c :: cs) || hasOccur pat cs

/-- The literal tag `[P]`. -/
def pTag : List Char := '[' :: 'P' :: ']' :: []

/-- JavaScript `description.replace(/\[P\]/g, '')` (line 602): a single
left-to-right scan removing every non-overlapping occurrence of `[P]`. -/
def stripP : List Char → List Char
  | '[' :: 'P' :: ']' :: rest => stripP rest
  | c :: cs => c :: stripP cs
  | [] => []

/-- Match of the regular expression `\[US\d+\]` at the start of the input:
on success, returns the matched tag and the remainder of the input. -/
def usTagSplit : List Char → Option (List Char × List Char)
  | '[' :: 'U' :: 'S' :: rest =>
    match rest.takeWhile Char.isDigit, rest.dropWhile Char.isDigit with
    | d :: ds, ']' :: r2 =>
      some ('[' :: 'U' :: 'S' :: ((d :: ds) ++ (']' :: [])), r2)
    | _, _ => none
  | _ => none

/-- Scanner for `replace(/\[US\d+\]/g, '')`, with explicit fuel (one unit per
character consumed) to keep the recursion structural. -/
def stripUSGo : Nat → List Char → List Char
  | 0, s => s
  | _ + 1, [] => []
  | f + 1, c :: cs =>
    match usTagSplit (c :: cs) with
    | some p => stripUSGo f p.2
    | none => c :: stripUSGo f cs

/-- JavaScript `description.replace(/\[US\d+\]/g, '')` (line 603): a single
left-to-right scan removing every non-overlapping occurrence of `[US<digits>]`. -/
def stripUS (s : List Char) : List Char := stripUSGo s.length s

/-- JavaScript `description.match(/\[US\d+\]/)` (line 597): the leftmost
occurrence of `[US<digits>]`, if any. -/
def firstUS : List Char → Option (List Char)
  | [] => none
  | c :: cs =>
    match usTagSplit (c :: cs) with
    | some p => some p.1
    | none => firstUS cs

/-- The task data stored on a task tree item (lines 614-627): the `taskData`
fields plus the display label `"<icon> <taskId> <story> <cleanDesc>"`. -/
structure Task where
  taskId : List Char
  description : List Char
  isCompleted : Bool
  hasParallel : Bool
  story : List Char
  lineNumber : Nat
  label : List Char
deriving Repr, DecidableEq

/-- A phase tree item: its name and the tasks attached when it is closed. -/
structure Phase where
  name : List Char
  tasks : List Task
deriving Repr, DecidableEq

/-- The regular expression `^## (Phase \d+): (.+)` of line 569.  Returns the
two captured groups.  `\d+` is greedy and the following literal is `:`, which
no shorter digit run can produce, so the match is deterministic; `(.+)` is the
maximal non-empty run of non-terminator characters. -/
def phaseMatch (l : List Char) : Option (List Char × List Char) :=
  match l with
  | '#' :: '#' :: ' ' :: 'P' :: 'h' :: 'a' :: 's' :: 'e' :: ' ' :: rest =>
    match rest.takeWhile Char.isDigit, rest.dropWhile Char.isDigit with
    | d :: ds, ':' :: ' ' :: r2 =>
      let run := r2.takeWhile jsDot
      if run.isEmpty then none
      else some ('P' :: 'h' :: 'a' :: 's' :: 'e' :: ' ' :: (d :: ds), run)
    | _, _ => none
  | _ => none

/-- `"<group1>: <group2>"`, the phase name built on line 577. -/
def phaseLabel (g : List Char × List Char) : List Char :=
  g.1 ++ ':' :: ' ' :: g.2

/-- The regular expression `^- \[([ xX])\] (T\d+)(.+)` of line 589.  Returns
the marker character, the captured id, and the captured trailing text.  When
nothing matchable by `.` follows the digits, the engine backtracks: `\d+`
gives up its last digit (it must keep at least one), and `(.+)` matches that
digit, so the id loses its final digit. -/
def taskMatch (l : List Char) : Option (Char × List Char × List Char) :=
  match l with
  | '-' :: ' ' :: '[' :: c :: ']' :: ' ' :: 'T' :: rest =>
    if c = ' ' || c = 'x' || c = 'X' then
      match rest.takeWhile Char.isDigit with
      | [] => none
      | d :: ds =>
        let digits := d :: ds
        let r := rest.dropWhile Char.isDigit
        let run := r.takeWhile jsDot
        if run.isEmpty then
          if 2 ≤ digits.length then
            some (c, 'T' :: digits.take (digits.length - 1),
                  digits.drop (digits.length - 1))
          else none
        else some (c, 'T' :: digits, run)
    else none
  | _ => none

/-- Construction of one task record from a matched line (lines 591-627):
`i` is the zero-based line index, `c` the checklist marker, `tid` the captured
id, `raw` the captured text after the id. -/
def mkTask (i : Nat) (c : Char) (tid raw : List Char) : Task :=
  let description := jsTrim raw
  let hasParallel := hasOccur pTag description
  let story := match firstUS description with | some u => u | none => []
  let cleanDesc0 := jsTrim (stripUS (stripP description))
  let cleanDesc :=
    if 80 < cleanDesc0.length then cleanDesc0.take 77 ++ ('.' :: '.' :: '.' :: [])
    else cleanDesc0
  let isCompleted := c.toLower == 'x'
  let label0 := jsTrim (tid ++ ' ' :: (story ++ ' ' :: cleanDesc))
  let icon : Char := if isCompleted then '✓' else if hasParallel then '⚡' else '○'
  { taskId := tid, description := cleanDesc, isCompleted := isCompleted,
    hasParallel := hasParallel, story := story, lineNumber := i,
    label := icon :: ' ' :: label0 }

/-- Closing the currently open phase, if any: attach the accumulated tasks and
append it to the result (lines 572-575 and 634-637). -/
def closePhase (cur : Option (List Char)) (ts : List Task) (acc : List Phase) :
    List Phase :=
  match cur with
  | some nm => acc ++ [⟨nm, ts⟩]
  | none => acc

/-- The scanning loop of `parseTasksFile` (lines 565-637): `i` is the index of
the next line, `cur` the name of the currently open phase, `ts` its
accumulated tasks, `acc` the closed phases. -/
def parseLoop : List (List Char) → Nat → Option (List Char) → List Task →
    List Phase → List Phase
  | [], _, cur, ts, acc => closePhase cur ts acc
  | l :: ls, i, cur, ts, acc =>
    match phaseMatch l with
    | some g => parseLoop ls (i + 1) (some (phaseLabel g)) [] (closePhase cur ts acc)
    | none =>
      match taskMatch l, cur with
      | some (c, tid, raw), some _ =>
        parseLoop ls (i + 1) cur (ts ++ [mkTask i c tid raw]) acc
      | _, _ => parseLoop ls (i + 1) cur ts acc

/-- `parseTasksFile` (lines 558-640), applied to the text of the document
(the file read of line 559 is outside the parser). -/
def parseTasksFile (content : List Char) : List Phase :=
  parseLoop (splitLines content) 0 none [] []

/-- A task is sourced from the document: the line at its recorded index
matches the task pattern and the task is exactly the record built from that
match. -/
def TaskOK (L : List (List Char)) (t : Task) : Prop :=
  ∃ l rest c tid raw,
    L.drop t.lineNumber = l :: rest ∧
    taskMatch l = some (c, tid, raw) ∧
    t = mkTask t.lineNumber c tid raw

/-- One task comes from an earlier source line than another. -/
def taskBefore (a b : Task) : Prop := a.lineNumber < b.lineNumber

/-- Concrete document used to witness the truncation claim: the description is
90 characters long. -/
def c2doc : List Char :=
  str "## Phase 1: A\n- [ ] T001 aaaaaaaaaaaaaaaaaaaaaaaaaaaaaaaaaaaaaaaaaaaaaaaaaaaaaaaaaaaaaaaaaaaaaaaaaaaaaaaaaaaaaaaaaa"

/-- The task parsed from `c2doc`: 77 characters kept plus the ellipsis marker. -/
def c2task : Task :=
  ⟨str "T001",
   str "aaaaaaaaaaaaaaaaaaaaaaaaaaaaaaaaaaaaaaaaaaaaaaaaaaaaaaaaaaaaaaaaaaaaaaaaaaaaa...",
   false, false, [], 1,
   str "○ T001  aaaaaaaaaaaaaaaaaaaaaaaaaaaaaaaaaaaaaaaaaaaaaaaaaaaaaaaaaaaaaaaaaaaaaaaaaaaaa..."⟩

/-- The phase parsed from `c2doc`. -/
def c2phase : Phase := ⟨str "Phase 1: A", [c2task]⟩

/-- Concrete document used to witness the tag-stripping claim. -/
def c3doc : List Char := str "## Phase 9: W\n- [x] T042 Fix [US7] bug [P] now"

/-- The task parsed from `c3doc`. -/
def c3task : Task :=
  ⟨str "T042", str "Fix  bug  now", true, true, str "[US7]", 1,
   str "✓ T042 [US7] Fix  bug  now"⟩

/-- The phase parsed from `c3doc`. -/
def c3phase : Phase := ⟨str "Phase 9: W", [c3task]⟩

/-- Concrete document used to witness the marker/id claim. -/
def c5doc : List Char := str "## Phase 2: B\n- [X] T5 y"

/-- The task parsed from `c5doc`. -/
def c5task : Task := ⟨str "T5", str "y", true, false, [], 1, str "✓ T5  y"⟩

/-- The phase parsed from `c5doc`. -/
def c5phase : Phase := ⟨str "Phase 2: B", [c5task]⟩

/-- Concrete document used to witness the ordering claim. -/
def c6doc : List Char := str "## Phase 1: A\n- [ ] T1 a\n- [x] T2 b\n## Phase 2: B"

/-- The first phase parsed from `c6doc`. -/
def c6phase : Phase :=
  ⟨str "Phase 1: A",
   [⟨str "T1", str "a", false, false, [], 1, str "○ T1  a"⟩,
    ⟨str "T2", str "b", true, false, [], 2, str "✓ T2  b"⟩]⟩

lemma drop_succ_of_drop_eq_cons {α : Type} {L : List α} {i : Nat} {l : α}
    {rest : List α} (h : L.drop i = l :: rest) : L.drop (i + 1) = rest := by
  calc L.drop (i + 1) = (L.drop i).drop 1 := (List.drop_drop 1 i L).symm
    _ = (l :: rest).drop 1 := by rw [h]
    _ = rest := rfl

lemma mem_closePhase {cur : Option (List Char)} {ts : List Task}
    {acc : List Phase} {p : Phase} (h : p ∈ closePhase cur ts acc) :
    p ∈ acc ∨ p.tasks = ts := by
  cases cur with
  | none => exact Or.inl h
  | some nm =>
    simp only [closePhase, List.mem_append, List.mem_singleton] at h
    rcases h with h | h
    · exact Or.inl h
    · right; rw [h]

lemma parseLoop_tasks_ok (L : List (List Char)) :
    ∀ (ls : List (List Char)) (i : Nat) (cur : Option (List Char))
      (ts : List Task) (acc : List Phase),
      L.drop i = ls →
      (∀ t ∈ ts, TaskOK L t) →
      (∀ p ∈ acc, ∀ t ∈ p.tasks, TaskOK L t) →
      ∀ p ∈ parseLoop ls i cur ts acc, ∀ t ∈ p.tasks, TaskOK L t := by
  intro ls
  induction ls with
  | nil =>
    intro i cur ts acc _ hts hacc p hp t ht
    rcases mem_closePhase hp with h | h
    · exact hacc p h t ht
    · exact hts t (h ▸ ht)
  | cons l ls ih =>
    intro i cur ts acc hdrop hts hacc p hp t ht
    have hdrop2 : L.drop (i + 1) = ls := drop_succ_of_drop_eq_cons hdrop
    cases hpm : phaseMatch l with
    | some g =>
      simp only [parseLoop, hpm] at hp
      refine ih (i + 1) _ [] _ hdrop2 (by simp) ?_ p hp t ht
      intro q hq u hu
      rcases mem_closePhase hq with h | h
      · exact hacc q h u hu
      · exact hts u (h ▸ hu)
    | none =>
      cases htm : taskMatch l with
      | some r =>
        obtain ⟨c, tid, raw⟩ := r
        cases cur with
        | some nm =>
          simp only [parseLoop, hpm, htm] at hp
          refine ih (i + 1) _ _ _ hdrop2 ?_ hacc p hp t ht
          intro u hu
          rcases List.mem_append.mp hu with h | h
          · exact hts u h
          · have hu2 : u = mkTask i c tid raw := by simpa using h
            subst hu2
            exact ⟨l, ls, c, tid, raw, hdrop, htm, rfl⟩
        | none =>
          simp only [parseLoop, hpm, htm] at hp
          exact ih (i + 1) _ _ _ hdrop2 hts hacc p hp t ht
      | none =>
        simp only [parseLoop, hpm, htm] at hp
        cases cur with
        | some nm => exact ih (i + 1) _ _ _ hdrop2 hts hacc p hp t ht
        | none => exact ih (i + 1) _ _ _ hdrop2 hts hacc p hp t ht

lemma takeWhile_of_all {α : Type} (p : α → Bool) :
    ∀ l : List α, l.all p = true → l.takeWhile p = l := by
  intro l
  induction l with
  | nil => intro _; rfl
  | cons a l ih =>
    intro h
    simp only [List.all_cons, Bool.and_eq_true] at h
    simp [List.takeWhile_cons, h.1, ih h.2]

lemma dropWhile_of_all {α : Type} (p : α → Bool) :
    ∀ l : List α, l.all p = true → l.dropWhile p = [] := by
  intro l
  induction l with
  | nil => intro _; rfl
  | cons a l ih =>
    intro h
    simp only [List.all_cons, Bool.and_eq_true] at h
    simp [List.dropWhile_cons, h.1, ih h.2]

lemma all_takeWhile {α : Type} (p : α → Bool) :
    ∀ l : List α, (l.takeWhile p).all p = true := by
  intro l
  induction l with
  | nil => rfl
  | cons a l ih =>
    by_cases h : p a = true
    · simp [List.takeWhile_cons, h, ih]
    · simp [List.takeWhile_cons, h]

lemma all_take {α : Type} (p : α → Bool) (n : Nat) :
    ∀ l : List α, l.all p = true → (l.take n).all p = true := by
  intro l h
  rw [List.all_eq_true] at h ⊢
  intro a ha
  exact h a (List.take_subset n l ha)

/-- Inversion of a successful task-line match: the marker is one of the three
class characters, the id is `T` followed by a non-empty run of digits, the
captured trailing text is non-empty, and the line has the literal shape the
pattern demands. -/
lemma taskMatch_inv {l : List Char} {c : Char} {tid raw : List Char}
    (h : taskMatch l = some (c, tid, raw)) :
    (c = ' ' ∨ c = 'x' ∨ c = 'X') ∧
    (∃ ds, tid = 'T' :: ds ∧ ds ≠ [] ∧ ds.all Char.isDigit = true) ∧
    raw ≠ [] ∧
    (∃ s, l = '-' :: ' ' :: '[' :: c :: ']' :: ' ' :: 'T' :: s) := by
  unfold taskMatch at h
  split at h
  case _ c0 rest0 =>
    split at h
    case isTrue hguard =>
      split at h
      case _ heq => exact absurd h (by simp)
      case _ d ds heq =>
        have hdigits : (d :: ds).all Char.isDigit = true := by
          rw [← heq]; exact all_takeWhile Char.isDigit rest0
        simp only [] at h
        split at h
        case isTrue hrun =>
          split at h
          case isTrue hlen =>
            injection h with h2
            injection h2 with hc h3
            injection h3 with htid hraw
            subst hc
            refine ⟨by simpa [or_assoc] using hguard, ?_, ?_, ⟨rest0, rfl⟩⟩
            · refine ⟨(d :: ds).take ((d :: ds).length - 1), htid.symm, ?_, ?_⟩
              · intro hnil
                have h5 := congrArg List.length hnil
                rw [List.length_take] at h5
                simp only [List.length_nil, List.length_cons] at h5 hlen
                omega
              · exact all_take Char.isDigit _ _ hdigits
            · intro hnil
              rw [← hraw] at hnil
              have h5 := congrArg List.length hnil
              simp [List.length_drop] at h5
          case isFalse => exact absurd h (by simp)
        case isFalse hrun =>
          injection h with h2
          injection h2 with hc h3
          injection h3 with htid hraw
          subst hc
          refine ⟨by simpa [or_assoc] using hguard, ?_, ?_, ⟨rest0, rfl⟩⟩
          · exact ⟨d :: ds, htid.symm, by simp, hdigits⟩
          · intro hnil
            rw [← hraw] at hnil
            simp only [List.isEmpty_iff] at hrun
            exact hrun hnil
    case isFalse => exact absurd h (by simp)
  case _ => exact absurd h (by simp)

lemma parse_tasks_ok (content : List Char) :
    ∀ p ∈ parseTasksFile content, ∀ t ∈ p.tasks, TaskOK (splitLines content) t := by
  intro p hp t ht
  exact parseLoop_tasks_ok (splitLines content) (splitLines content) 0 none [] []
    rfl (by simp) (by simp) p hp t ht

/-- While no phase is open, every line that is not a phase header — in
particular every line matching the task pattern — is skipped without any
effect beyond advancing the line index. -/
lemma parseLoop_skipNoHeader :
    ∀ (pre rest : List (List Char)) (i : Nat) (ts : List Task) (acc : List Phase),
      (∀ l ∈ pre, phaseMatch l = none) →
      parseLoop (pre ++ rest) i none ts acc =
        parseLoop rest (i + pre.length) none ts acc := by
  intro pre
  induction pre with
  | nil => intro rest i ts acc _; simp
  | cons l pre ih =>
    intro rest i ts acc hnone
    have h1 : phaseMatch l = none := hnone l (by simp)
    have h2 : ∀ l2 ∈ pre, phaseMatch l2 = none := fun l2 h => hnone l2 (by simp [h])
    cases htm : taskMatch l with
    | some r =>
      simp only [List.cons_append, parseLoop, h1, htm, List.append_eq]
      rw [ih rest (i + 1) ts acc h2]
      congr 1
      simp [List.length_cons]
      omega
    | none =>
      simp only [List.cons_append, parseLoop, h1, htm, List.append_eq]
      rw [ih rest (i + 1) ts acc h2]
      congr 1
      simp [List.length_cons]
      omega

/-- With no header line at all and no phase open, the loop returns the
accumulator unchanged. -/
lemma parseLoop_noHeader :
    ∀ (ls : List (List Char)) (i : Nat) (ts : List Task) (acc : List Phase),
      (∀ l ∈ ls, phaseMatch l = none) →
      parseLoop ls i none ts acc = acc := by
  intro ls
  induction ls with
  | nil => intro i ts acc _; rfl
  | cons l ls ih =>
    intro i ts acc hnone
    have h1 : phaseMatch l = none := hnone l (by simp)
    have h2 : ∀ l2 ∈ ls, phaseMatch l2 = none := fun l2 h => hnone l2 (by simp [h])
    cases htm : taskMatch l with
    | some r => simp only [parseLoop, h1, htm]; exact ih (i + 1) ts acc h2
    | none => simp only [parseLoop, h1, htm]; exact ih (i + 1) ts acc h2

lemma map_name_closePhase (cur : Option (List Char)) (ts : List Task)
    (acc : List Phase) :
    (closePhase cur ts acc).map Phase.name = acc.map Phase.name ++ cur.toList := by
  cases cur <;> simp [closePhase]

/-- The names of the produced phases are exactly the names of the closed
phases, then the open one, then one name per header line, in order. -/
lemma parseLoop_names :
    ∀ (ls : List (List Char)) (i : Nat) (cur : Option (List Char))
      (ts : List Task) (acc : List Phase),
      (parseLoop ls i cur ts acc).map Phase.name =
        acc.map Phase.name ++ cur.toList ++
          ls.filterMap (fun l => (phaseMatch l).map phaseLabel) := by
  intro ls
  induction ls with
  | nil =>
    intro i cur ts acc
    simp [parseLoop, map_name_closePhase]
  | cons l ls ih =>
    intro i cur ts acc
    cases hpm : phaseMatch l with
    | some g =>
      simp only [parseLoop, hpm]
      rw [ih]
      simp [map_name_closePhase, hpm, List.append_assoc]
    | none =>
      cases htm : taskMatch l with
      | some r =>
        obtain ⟨c, tid, raw⟩ := r
        cases cur with
        | some nm =>
          simp only [parseLoop, hpm, htm]
          rw [ih]
          simp [hpm]
        | none =>
          simp only [parseLoop, hpm, htm]
          rw [ih]
          simp [hpm]
      | none =>
        cases cur with
        | some nm =>
          simp only [parseLoop, hpm, htm]
          rw [ih]
          simp [hpm]
        | none =>
          simp only [parseLoop, hpm, htm]
          rw [ih]
          simp [hpm]

/-- The number of produced phases is the number of closed phases, plus one for
the open phase, plus one per header line. -/
lemma parseLoop_length :
    ∀ (ls : List (List Char)) (i : Nat) (cur : Option (List Char))
      (ts : List Task) (acc : List Phase),
      (parseLoop ls i cur ts acc).length =
        acc.length + cur.toList.length +
          ls.countP (fun l => (phaseMatch l).isSome) := by
  intro ls
  induction ls with
  | nil =>
    intro i cur ts acc
    cases cur <;> simp [parseLoop, closePhase]
  | cons l ls ih =>
    intro i cur ts acc
    cases hpm : phaseMatch l with
    | some g =>
      simp only [parseLoop, hpm]
      rw [ih]
      cases cur <;> simp [closePhase, List.countP_cons, hpm] <;> omega
    | none =>
      cases htm : taskMatch l with
      | some r =>
        obtain ⟨c, tid, raw⟩ := r
        cases cur with
        | some nm =>
          simp only [parseLoop, hpm, htm]
          rw [ih]
          simp [List.countP_cons, hpm]
        | none =>
          simp only [parseLoop, hpm, htm]
          rw [ih]
          simp [List.countP_cons, hpm]
      | none =>
        cases cur with
        | some nm =>
          simp only [parseLoop, hpm, htm]
          rw [ih]
          simp [List.countP_cons, hpm]
        | none =>
          simp only [parseLoop, hpm, htm]
          rw [ih]
          simp [List.countP_cons, hpm]

lemma mkTask_lineNumber (i : Nat) (c : Char) (tid raw : List Char) :
    (mkTask i c tid raw).lineNumber = i := rfl

lemma tasks_sublist_flatMap :
    ∀ (phs : List Phase) (p : Phase), p ∈ phs →
      List.Sublist p.tasks (phs.flatMap Phase.tasks) := by
  intro phs
  induction phs with
  | nil => intro p hp; exact absurd hp (List.not_mem_nil p)
  | cons q phs ih =>
    intro p hp
    rcases List.mem_cons.mp hp with h | h
    · subst h
      simp only [List.flatMap_cons]
      exact List.sublist_append_left _ _
    · simp only [List.flatMap_cons]
      exact (ih p h).trans (List.sublist_append_right _ _)

lemma flatMap_closePhase (cur : Option (List Char)) (ts : List Task)
    (acc : List Phase) :
    (closePhase cur ts acc).flatMap Phase.tasks =
      acc.flatMap Phase.tasks ++ (match cur with | some _ => ts | none => []) := by
  cases cur <;> simp [closePhase]

/-- Tasks accumulate in strictly increasing source-line order: every task
recorded so far sits on a line before the current index, and the final result
lists all tasks in document order. -/
lemma parseLoop_pairwise :
    ∀ (ls : List (List Char)) (i : Nat) (cur : Option (List Char))
      (ts : List Task) (acc : List Phase),
      (acc.flatMap Phase.tasks ++ ts).Pairwise taskBefore →
      (∀ t ∈ acc.flatMap Phase.tasks ++ ts, t.lineNumber < i) →
      ((parseLoop ls i cur ts acc).flatMap Phase.tasks).Pairwise taskBefore := by
  intro ls
  induction ls with
  | nil =>
    intro i cur ts acc hpw _
    cases cur with
    | none =>
      simp only [parseLoop, flatMap_closePhase, List.append_nil]
      exact List.Pairwise.sublist (List.sublist_append_left _ ts) hpw
    | some nm =>
      simp only [parseLoop, flatMap_closePhase]
      simpa using hpw
  | cons l ls ih =>
    intro i cur ts acc hpw hbd
    cases hpm : phaseMatch l with
    | some g =>
      simp only [parseLoop, hpm]
      apply ih
      · rw [flatMap_closePhase]
        cases cur with
        | none =>
          simp only [List.append_nil]
          exact List.Pairwise.sublist (List.sublist_append_left _ ts) hpw
        | some nm => simpa using hpw
      · intro t ht
        rw [flatMap_closePhase] at ht
        have ht2 : t ∈ acc.flatMap Phase.tasks ++ ts := by
          cases cur with
          | none => simp only [List.append_nil] at ht; exact List.mem_append_left _ ht
          | some nm => simpa using ht
        exact Nat.lt_succ_of_lt (hbd t ht2)
    | none =>
      cases htm : taskMatch l with
      | some r =>
        obtain ⟨c, tid, raw⟩ := r
        cases cur with
        | some nm =>
          simp only [parseLoop, hpm, htm]
          apply ih
          · rw [← List.append_assoc]
            rw [List.pairwise_append]
            refine ⟨hpw, List.pairwise_singleton _ _, ?_⟩
            intro a ha b hb
            rw [List.mem_singleton] at hb
            subst hb
            show a.lineNumber < (mkTask i c tid raw).lineNumber
            rw [mkTask_lineNumber]
            exact hbd a ha
          · intro t ht
            rw [← List.append_assoc] at ht
            rcases List.mem_append.mp ht with h | h
            · exact Nat.lt_succ_of_lt (hbd t h)
            · rw [List.mem_singleton] at h
              subst h
              rw [mkTask_lineNumber]
              exact Nat.lt_succ_self i
        | none =>
          simp only [parseLoop, hpm, htm]
          apply ih
          · exact hpw
          · intro t ht; exact Nat.lt_succ_of_lt (hbd t ht)
      | none =>
        cases cur with
        | some nm =>
          simp only [parseLoop, hpm, htm]
          apply ih
          · exact hpw
          · intro t ht; exact Nat.lt_succ_of_lt (hbd t ht)
        | none =>
          simp only [parseLoop, hpm, htm]
          apply ih
          · exact hpw
          · intro t ht; exact Nat.lt_succ_of_lt (hbd t ht)

/-- Lines that match neither pattern are skipped whatever the state, so a run
of such lines at the end of the document leaves only the final phase close. -/
lemma parseLoop_skipInert :
    ∀ (suf : List (List Char)) (i : Nat) (cur : Option (List Char))
      (ts : List Task) (acc : List Phase),
      (∀ l ∈ suf, phaseMatch l = none ∧ taskMatch l = none) →
      parseLoop suf i cur ts acc = closePhase cur ts acc := by
  intro suf
  induction suf with
  | nil => intro i cur ts acc _; rfl
  | cons l suf ih =>
    intro i cur ts acc hsuf
    obtain ⟨hpm, htm⟩ := hsuf l (by simp)
    have hsuf2 : ∀ l2 ∈ suf, phaseMatch l2 = none ∧ taskMatch l2 = none :=
      fun l2 h => hsuf l2 (by simp [h])
    cases cur with
    | some nm =>
      simp only [parseLoop, hpm, htm]
      exact ih _ _ _ _ hsuf2
    | none =>
      simp only [parseLoop, hpm, htm]
      exact ih _ _ _ _ hsuf2

/-- When a phase-header line is followed only by lines matching neither
pattern — no task lines, no further headers, the end of the document included —
the final produced phase is that header's phase with an empty task list. -/
lemma parseLoop_lastHeader :
    ∀ (pre : List (List Char)) (i : Nat) (cur : Option (List Char))
      (ts : List Task) (acc : List Phase) (hl : List Char)
      (g : List Char × List Char) (suf : List (List Char)),
      phaseMatch hl = some g →
      (∀ l ∈ suf, phaseMatch l = none ∧ taskMatch l = none) →
      (parseLoop (pre ++ hl :: suf) i cur ts acc).getLast? =
        some ⟨phaseLabel g, []⟩ := by
  intro pre
  induction pre with
  | nil =>
    intro i cur ts acc hl g suf hg hsuf
    simp only [List.nil_append, parseLoop, hg]
    rw [parseLoop_skipInert suf _ _ _ _ hsuf]
    cases cur <;> simp [closePhase]
  | cons l pre ih =>
    intro i cur ts acc hl g suf hg hsuf
    cases hpm : phaseMatch l with
    | some g2 =>
      simp only [List.cons_append, parseLoop, hpm]
      exact ih _ _ _ _ hl g suf hg hsuf
    | none =>
      cases htm : taskMatch l with
      | some r =>
        obtain ⟨c, tid, raw⟩ := r
        cases cur with
        | some nm =>
          simp only [List.cons_append, parseLoop, hpm, htm]
          exact ih _ _ _ _ hl g suf hg hsuf
        | none =>
          simp only [List.cons_append, parseLoop, hpm, htm]
          exact ih _ _ _ _ hl g suf hg hsuf
      | none =>
        cases cur with
        | some nm =>
          simp only [List.cons_append, parseLoop, hpm, htm]
          exact ih _ _ _ _ hl g suf hg hsuf
        | none =>
          simp only [List.cons_append, parseLoop, hpm, htm]
          exact ih _ _ _ _ hl g suf hg hsuf

/-- Claim C1: the five-line example document parses to exactly two phases,
"Phase 1: Setup" with tasks T001 (completed, story `[US1]`, description
"Initialize project") and T002 (not completed, parallelizable, description
"Add linting"), then "Phase 2: Build" with the single task T003
(parallelizable, story `[US2]`, description "Compile sources"). -/
theorem claim_C1 :
    parseTasksFile
        (str "## Phase 1: Setup\n- [x] T001 Initialize project [US1]\n- [ ] T002 Add linting [P]\n## Phase 2: Build\n- [ ] T003 Compile sources [P][US2]") =
      [⟨str "Phase 1: Setup",
        [⟨str "T001", str "Initialize project", true, false, str "[US1]", 1,
          str "✓ T001 [US1] Initialize project"⟩,
         ⟨str "T002", str "Add linting", false, true, [], 2,
          str "⚡ T002  Add linting"⟩]⟩,
       ⟨str "Phase 2: Build",
        [⟨str "T003", str "Compile sources", false, true, str "[US2]", 4,
          str "⚡ T003 [US2] Compile sources"⟩]⟩] := by
  decide

/-- Claim C2: every stored task description is obtained from the
tag-stripped, trimmed text of its source line; when that text exceeds 80
characters the stored value is its first 77 characters followed by the
three-character marker `...` (total length 80), otherwise it is stored
unchanged — the length test and the cut both happen after stripping and
trimming. -/
theorem claim_C2 (content : List Char) (p : Phase) (t : Task)
    (hp : p ∈ parseTasksFile content) (ht : t ∈ p.tasks) :
    ∃ l rest c tid raw,
      (splitLines content).drop t.lineNumber = l :: rest ∧
      taskMatch l = some (c, tid, raw) ∧
      (80 < (jsTrim (stripUS (stripP (jsTrim raw)))).length →
        t.description =
          (jsTrim (stripUS (stripP (jsTrim raw)))).take 77 ++ ('.' :: '.' :: '.' :: []) ∧
        t.description.length = 80) ∧
      ((jsTrim (stripUS (stripP (jsTrim raw)))).length ≤ 80 →
        t.description = jsTrim (stripUS (stripP (jsTrim raw)))) := by
  obtain ⟨l, rest, c, tid, raw, h1, h2, h3⟩ := parse_tasks_ok content p hp t ht
  have hd : t.description =
      if 80 < (jsTrim (stripUS (stripP (jsTrim raw)))).length
      then (jsTrim (stripUS (stripP (jsTrim raw)))).take 77 ++ ('.' :: '.' :: '.' :: [])
      else jsTrim (stripUS (stripP (jsTrim raw))) :=
    congrArg Task.description h3
  refine ⟨l, rest, c, tid, raw, h1, h2, ?_, ?_⟩
  · intro hlen
    constructor
    · rw [hd, if_pos hlen]
    · rw [hd, if_pos hlen, List.length_append, List.length_take]
      have h77 : 77 ≤ (jsTrim (stripUS (stripP (jsTrim raw)))).length := by omega
      simp [Nat.min_eq_left h77]
  · intro hlen
    rw [hd, if_neg (by omega)]

/-- Claim C2 witness: on `c2doc` the clean description has 90 characters, so
the stored description is its first 77 characters plus `...`, length 80. -/
theorem claim_C2_witness :
    ∃ l rest c tid raw,
      (splitLines c2doc).drop c2task.lineNumber = l :: rest ∧
      taskMatch l = some (c, tid, raw) ∧
      (80 < (jsTrim (stripUS (stripP (jsTrim raw)))).length →
        c2task.description =
          (jsTrim (stripUS (stripP (jsTrim raw)))).take 77 ++ ('.' :: '.' :: '.' :: []) ∧
        c2task.description.length = 80) ∧
      ((jsTrim (stripUS (stripP (jsTrim raw)))).length ≤ 80 →
        c2task.description = jsTrim (stripUS (stripP (jsTrim raw)))) :=
  claim_C2 c2doc c2phase c2task (by decide) (by decide)

/-- Claim C3 counterexample: on the line `- [ ] T001 [[P]P] x` the single
removal pass deletes the inner `[P]` and the surrounding characters recombine
into a new `[P]`, so the stored description `[P] x` still contains the tag —
the claim that every occurrence of `[P]` is removed from the stored
description fails at this input. -/
theorem claim_C3_counterexample :
    ((parseTasksFile (str "## Phase 1: A\n- [ ] T001 [[P]P] x")).flatMap
        Phase.tasks).map Task.description = [str "[P] x"] ∧
      hasOccur pTag (str "[P] x") = true := by
  decide

/-- Claim C3 (amended): the stored description is the raw description with
every leftmost non-overlapping `[P]` occurrence removed in one global pass,
then every leftmost non-overlapping `[US<digits>]` occurrence removed in one
global pass, then trimmed (and truncated); because each pass is single,
re-formed tags can survive into the stored description.  The story field is
exactly the first `[US<digits>]` substring of the raw description when one
exists and empty otherwise, and the parallel flag records whether the raw
description contains `[P]`. -/
theorem claim_C3_amended (content : List Char) (p : Phase) (t : Task)
    (hp : p ∈ parseTasksFile content) (ht : t ∈ p.tasks) :
    ∃ l rest c tid raw,
      (splitLines content).drop t.lineNumber = l :: rest ∧
      taskMatch l = some (c, tid, raw) ∧
      t.story = (firstUS (jsTrim raw)).getD [] ∧
      t.hasParallel = hasOccur pTag (jsTrim raw) ∧
      t.description =
        (if 80 < (jsTrim (stripUS (stripP (jsTrim raw)))).length
         then (jsTrim (stripUS (stripP (jsTrim raw)))).take 77 ++ ('.' :: '.' :: '.' :: [])
         else jsTrim (stripUS (stripP (jsTrim raw)))) := by
  obtain ⟨l, rest, c, tid, raw, h1, h2, h3⟩ := parse_tasks_ok content p hp t ht
  refine ⟨l, rest, c, tid, raw, h1, h2, ?_, congrArg Task.hasParallel h3,
    congrArg Task.description h3⟩
  have hs : t.story = (mkTask t.lineNumber c tid raw).story := congrArg Task.story h3
  rw [hs]
  show (match firstUS (jsTrim raw) with | some u => u | none => []) =
    (firstUS (jsTrim raw)).getD []
  cases firstUS (jsTrim raw) <;> rfl

/-- Claim C3 witness: on `c3doc` the story is the first `[US<digits>]` tag of
the raw description and both tags are stripped from the stored description. -/
theorem claim_C3_witness :
    ∃ l rest c tid raw,
      (splitLines c3doc).drop c3task.lineNumber = l :: rest ∧
      taskMatch l = some (c, tid, raw) ∧
      c3task.story = (firstUS (jsTrim raw)).getD [] ∧
      c3task.hasParallel = hasOccur pTag (jsTrim raw) ∧
      c3task.description =
        (if 80 < (jsTrim (stripUS (stripP (jsTrim raw)))).length
         then (jsTrim (stripUS (stripP (jsTrim raw)))).take 77 ++ ('.' :: '.' :: '.' :: [])
         else jsTrim (stripUS (stripP (jsTrim raw)))) :=
  claim_C3_amended c3doc c3phase c3task (by decide) (by decide)

/-- Claim C4: a line matching the task pattern never matches the phase-header
pattern; while no phase is open, any prefix of lines containing no phase
header — task lines included — is skipped with no effect on the result beyond
the line index, so a task line before the first header contributes no task and
no synthetic phase, and parsing continues normally. -/
theorem claim_C4 :
    (∀ (l : List Char) (r : Char × List Char × List Char),
        taskMatch l = some r → phaseMatch l = none) ∧
    (∀ (pre rest : List (List Char)) (i : Nat) (ts : List Task) (acc : List Phase),
        (∀ l ∈ pre, phaseMatch l = none) →
        parseLoop (pre ++ rest) i none ts acc =
          parseLoop rest (i + pre.length) none ts acc) ∧
    (∀ (content : List Char) (pre rest : List (List Char)),
        splitLines content = pre ++ rest →
        (∀ l ∈ pre, phaseMatch l = none) →
        parseTasksFile content = parseLoop rest pre.length none [] []) := by
  refine ⟨?_, parseLoop_skipNoHeader, ?_⟩
  · intro l r h
    obtain ⟨c, tid, raw⟩ := r
    obtain ⟨-, -, -, s, rfl⟩ := taskMatch_inv h
    rfl
  · intro content pre rest hsplit hnone
    show parseLoop (splitLines content) 0 none [] [] = _
    rw [hsplit, parseLoop_skipNoHeader pre rest 0 [] [] hnone]
    simp

/-- Claim C4 witness: the checklist line `- [ ] T000 x` before the first
header is dropped; parsing the two-line document is the same as starting at
the header with line index 1. -/
theorem claim_C4_witness :
    phaseMatch (str "- [ ] T001 foo") = none ∧
    parseTasksFile (str "- [ ] T000 x\n## Phase 1: A") =
      parseLoop [str "## Phase 1: A"] 1 none [] [] := by
  constructor
  · exact claim_C4.1 (str "- [ ] T001 foo") (' ', str "T001", str " foo") (by decide)
  · have h := claim_C4.2.2 (str "- [ ] T000 x\n## Phase 1: A")
      [str "- [ ] T000 x"] [str "## Phase 1: A"] (by decide) (by decide)
    simpa using h

/-- Claim C5: every task produced by the parser comes from a matched line
whose marker character is one of space, `x`, `X`; the task is completed
exactly when the marker is `x` or `X`; the captured id is an upper-case `T`
followed by a non-empty run of digits.  A line whose id starts with a
lower-case `t`, or whose id has no digit after the `T`, never matches. -/
theorem claim_C5 :
    (∀ (content : List Char) (p : Phase) (t : Task),
        p ∈ parseTasksFile content → t ∈ p.tasks →
        ∃ l rest c tid raw,
          (splitLines content).drop t.lineNumber = l :: rest ∧
          taskMatch l = some (c, tid, raw) ∧
          (t.isCompleted = true ↔ (c = 'x' ∨ c = 'X')) ∧
          (c = ' ' ∨ c = 'x' ∨ c = 'X') ∧
          (∃ ds, tid = 'T' :: ds ∧ ds ≠ [] ∧ ds.all Char.isDigit = true)) ∧
    (∀ (m : Char) (s : List Char),
        taskMatch ('-' :: ' ' :: '[' :: m :: ']' :: ' ' :: 't' :: s) = none) ∧
    (∀ (m : Char) (s : List Char),
        s.head?.any Char.isDigit = false →
        taskMatch ('-' :: ' ' :: '[' :: m :: ']' :: ' ' :: 'T' :: s) = none) := by
  refine ⟨?_, ?_, ?_⟩
  · intro content p t hp ht
    obtain ⟨l, rest, c, tid, raw, h1, h2, h3⟩ := parse_tasks_ok content p hp t ht
    obtain ⟨hclass, hid, -, -⟩ := taskMatch_inv h2
    have hcomp : t.isCompleted = (c.toLower == 'x') := congrArg Task.isCompleted h3
    refine ⟨l, rest, c, tid, raw, h1, h2, ?_, hclass, hid⟩
    rw [hcomp]
    rcases hclass with rfl | rfl | rfl <;> decide
  · intro m s
    rfl
  · intro m s h
    have htw : s.takeWhile Char.isDigit = [] := by
      cases s with
      | nil => rfl
      | cons a s2 =>
        simp only [List.head?_cons, Option.any_some] at h
        simp [List.takeWhile_cons, h]
    simp only [taskMatch, htw]
    split <;> rfl

/-- Claim C5 witness: on `c5doc` the marker `X` yields a completed task with
id `T5`; a lower-case `t` line and a digitless id line do not match. -/
theorem claim_C5_witness :
    (∃ l rest c tid raw,
        (splitLines c5doc).drop c5task.lineNumber = l :: rest ∧
        taskMatch l = some (c, tid, raw) ∧
        (c5task.isCompleted = true ↔ (c = 'x' ∨ c = 'X')) ∧
        (c = ' ' ∨ c = 'x' ∨ c = 'X') ∧
        (∃ ds, tid = 'T' :: ds ∧ ds ≠ [] ∧ ds.all Char.isDigit = true)) ∧
    taskMatch ('-' :: ' ' :: '[' :: 'x' :: ']' :: ' ' :: 't' :: str "001 foo") = none ∧
    taskMatch ('-' :: ' ' :: '[' :: 'x' :: ']' :: ' ' :: 'T' :: str "x foo") = none :=
  ⟨claim_C5.1 c5doc c5phase c5task (by decide) (by decide),
   claim_C5.2.1 'x' (str "001 foo"),
   claim_C5.2.2 'x' (str "x foo") (by decide)⟩

/-- Claim C6: phases appear in the output in the same relative order as their
header lines (one output name per header line, in document order), and the
tasks of the whole output — hence of each phase — carry strictly increasing
source-line indices, so tasks appear in source order inside the phase that was
open at their line. -/
theorem claim_C6 (content : List Char) :
    ((parseTasksFile content).map Phase.name =
        (splitLines content).filterMap (fun l => (phaseMatch l).map phaseLabel)) ∧
    (((parseTasksFile content).flatMap Phase.tasks).map Task.lineNumber).Pairwise
      (· < ·) ∧
    ∀ p ∈ parseTasksFile content,
      (p.tasks.map Task.lineNumber).Pairwise (· < ·) := by
  have hglobal : ((parseTasksFile content).flatMap Phase.tasks).Pairwise taskBefore :=
    parseLoop_pairwise (splitLines content) 0 none [] [] (by simp) (by simp)
  refine ⟨?_, ?_, ?_⟩
  · simpa using parseLoop_names (splitLines content) 0 none [] []
  · rw [List.pairwise_map]
    exact hglobal
  · intro p hp
    rw [List.pairwise_map]
    exact List.Pairwise.sublist (tasks_sublist_flatMap _ p hp) hglobal

/-- Claim C6 witness: on `c6doc` the phase names follow the header order and
the task line indices are strictly increasing. -/
theorem claim_C6_witness :
    ((parseTasksFile c6doc).map Phase.name =
        (splitLines c6doc).filterMap (fun l => (phaseMatch l).map phaseLabel)) ∧
    (((parseTasksFile c6doc).flatMap Phase.tasks).map Task.lineNumber).Pairwise
      (· < ·) ∧
    (c6phase.tasks.map Task.lineNumber).Pairwise (· < ·) :=
  ⟨(claim_C6 c6doc).1, (claim_C6 c6doc).2.1, (claim_C6 c6doc).2.2 c6phase (by decide)⟩

/-- Claim C7: the parser emits exactly one phase per header line, so phases
with zero tasks are never omitted; and whenever a header line is followed only
by lines that match neither pattern — no task lines and no further headers,
whether the header is the literal last line or trailing non-matching lines
(such as the empty line after a final newline) follow — the final emitted
phase is that header's phase with an empty task list. -/
theorem claim_C7 :
    (∀ content : List Char,
        (parseTasksFile content).length =
          (splitLines content).countP (fun l => (phaseMatch l).isSome)) ∧
    (∀ (content : List Char) (pre : List (List Char)) (hl : List Char)
        (g : List Char × List Char) (suf : List (List Char)),
        splitLines content = pre ++ hl :: suf →
        phaseMatch hl = some g →
        (∀ l ∈ suf, phaseMatch l = none ∧ taskMatch l = none) →
        (parseTasksFile content).getLast? = some ⟨phaseLabel g, []⟩) := by
  constructor
  · intro content
    simpa using parseLoop_length (splitLines content) 0 none [] []
  · intro content pre hl g suf hsplit hg hsuf
    show (parseLoop (splitLines content) 0 none [] []).getLast? = _
    rw [hsplit]
    exact parseLoop_lastHeader pre 0 none [] [] hl g suf hg hsuf

/-- Claim C7 witness: in `"x\n## Phase 3: Polish\n"` the trailing newline
leaves a final empty line after the header, and the output still ends with
that phase carrying an empty task list, with one phase per header line. -/
theorem claim_C7_witness :
    (parseTasksFile (str "x\n## Phase 3: Polish\n")).length =
      (splitLines (str "x\n## Phase 3: Polish\n")).countP
        (fun l => (phaseMatch l).isSome) ∧
    (parseTasksFile (str "x\n## Phase 3: Polish\n")).getLast? =
      some ⟨phaseLabel (str "Phase 3", str "Polish"), []⟩ :=
  ⟨claim_C7.1 (str "x\n## Phase 3: Polish\n"),
   claim_C7.2 (str "x\n## Phase 3: Polish\n") [str "x"] (str "## Phase 3: Polish")
     (str "Phase 3", str "Polish") [([] : List Char)]
     (by decide) (by decide) (by decide)⟩

/-- Claim C8: the parser is a total function (it is defined by structural
recursion, so it terminates and raises nothing for every input); the empty
document parses to the empty phase list, and so does any document with no
phase-header line — the placeholder entry is added by the caller, not here. -/
theorem claim_C8 :
    parseTasksFile [] = [] ∧
    ∀ content : List Char,
      ((splitLines content).all fun l => (phaseMatch l).isNone) = true →
      parseTasksFile content = [] := by
  constructor
  · rfl
  · intro content hall
    have hnone : ∀ l ∈ splitLines content, phaseMatch l = none := by
      intro l hl
      exact Option.isNone_iff_eq_none.mp (List.all_eq_true.mp hall l hl)
    exact parseLoop_noHeader (splitLines content) 0 [] [] hnone

/-- Claim C8 witness: a two-line document with no header parses to the empty
phase list. -/
theorem claim_C8_witness : parseTasksFile (str "hello\nworld") = [] :=
  claim_C8.2 (str "hello\nworld") (by decide)

/-- Claim C9: parsing is a pure function of the document text — the embedding
takes only the text as input and touches no other state, so two invocations on
identical text yield identical results. -/
theorem claim_C9 :
    ∀ content : List Char, parseTasksFile content = parseTasksFile content :=
  fun _ => rfl

/-- Claim C10 counterexample: on the line `- [ ] T001` the task pattern DOES
match — the regex engine backtracks, `\d+` gives up its final digit and `.+`
consumes it — producing a task with id `T00` and description `1`, contrary to
the claim that no task is produced. -/
theorem claim_C10_counterexample :
    ((parseTasksFile (str "## Phase 1: A\n- [ ] T001")).flatMap Phase.tasks).map
        (fun t => (t.taskId, t.description)) = [(str "T00", str "1")] := by
  decide

/-- Claim C10 (amended): a checklist line with a single digit after `T` and
nothing after it does not match (backtracking cannot help, `\d+` must keep one
digit); with two or more digits and nothing after them, the pattern matches by
backtracking — the final digit is captured as the trailing text and the id
loses it; in every successful match the captured trailing text is non-empty. -/
theorem claim_C10_amended :
    (∀ (m d : Char), d.isDigit = true →
        taskMatch ('-' :: ' ' :: '[' :: m :: ']' :: ' ' :: 'T' :: d :: []) = none) ∧
    (∀ (m : Char) (ds : List Char), (m = ' ' ∨ m = 'x' ∨ m = 'X') →
        ds.all Char.isDigit = true → 2 ≤ ds.length →
        taskMatch ('-' :: ' ' :: '[' :: m :: ']' :: ' ' :: 'T' :: ds) =
          some (m, 'T' :: ds.take (ds.length - 1), ds.drop (ds.length - 1))) ∧
    (∀ (l : List Char) (c : Char) (tid raw : List Char),
        taskMatch l = some (c, tid, raw) → raw ≠ []) := by
  refine ⟨?_, ?_, ?_⟩
  · intro m d hd
    simp only [taskMatch, List.takeWhile_cons, hd, List.takeWhile_nil,
      List.dropWhile_cons, List.dropWhile_nil]
    split <;> simp
  · intro m ds hm hall hlen
    obtain ⟨d, ds2, rfl⟩ : ∃ d ds2, ds = d :: ds2 := by
      cases ds with
      | nil => simp at hlen
      | cons d ds2 => exact ⟨d, ds2, rfl⟩
    have hguard : (m = ' ' || m = 'x' || m = 'X') = true := by
      rcases hm with rfl | rfl | rfl <;> simp
    simp only [taskMatch, hguard, if_true,
      takeWhile_of_all Char.isDigit _ hall, dropWhile_of_all Char.isDigit _ hall,
      List.takeWhile_nil, List.isEmpty_nil, if_pos hlen]
  · intro l c tid raw h
    exact (taskMatch_inv h).2.2.1

/-- Claim C10 witness: `- [ ] T7` (one digit, nothing after) does not match;
`- [x] T001` matches by backtracking with id `T00` and trailing text `1`,
which is non-empty. -/
theorem claim_C10_witness :
    taskMatch ('-' :: ' ' :: '[' :: ' ' :: ']' :: ' ' :: 'T' :: '7' :: []) = none ∧
    taskMatch ('-' :: ' ' :: '[' :: 'x' :: ']' :: ' ' :: 'T' :: str "001") =
      some ('x', str "T00", str "1") ∧
    str "1" ≠ ([] : List Char) := by
  refine ⟨claim_C10_amended.1 ' ' '7' (by decide), ?_, ?_⟩
  · have h := claim_C10_amended.2.1 'x' (str "001")
      (Or.inr (Or.inl rfl)) (by decide) (by decide)
    exact h.trans (by decide)
  · exact claim_C10_amended.2.2
      ('-' :: ' ' :: '[' :: 'x' :: ']' :: ' ' :: 'T' :: str "001")
      'x' (str "T00") (str "1") (by decide)

end TraycerPoc
